import Mathlib

/-!
Shallow embedding of `convert_gprof_csv_to_sqlite.py`: the gprof-cc CSV to
SQLite loader.  Strings are modelled as `List Char`, one Python `str` field
per list.  Machine-level SQLite behaviour is modelled as pure state: the
destination table is the list of inserted value tuples, in insertion order.
-/

/-! ### Character classes (ASCII, as used by the source's regexes) -/

/-- ASCII whitespace recognised by Python `str.strip()`. -/
def isSpaceB (c : Char) : Bool :=
  c == ' ' || c == '\t' || c == '\n' || c == '\r' || c == '\x0b' || c == '\x0c'

/-- `[0-9]` of the source's regexes. -/
def isDigitB (c : Char) : Bool := decide (48 ≤ c.toNat) && decide (c.toNat ≤ 57)

/-- `[a-z]`. -/
def isLowerB (c : Char) : Bool := decide (97 ≤ c.toNat) && decide (c.toNat ≤ 122)

/-- `[A-Z]`. -/
def isUpperB (c : Char) : Bool := decide (65 ≤ c.toNat) && decide (c.toNat ≤ 90)

/-- The identifier character class `[a-z0-9_]` of `sanitize_column`'s `re.sub`. -/
def allowedB (c : Char) : Bool := isLowerB c || isDigitB c || c == '_'

/-- Python `str.lower()`, ASCII range (header text is ASCII in this format). -/
def lowerChar (c : Char) : Char :=
  if isUpperB c then Char.ofNat (c.toNat + 32) else c

/-! ### Generic stripping helpers (Python `str.strip` and `str.strip("_")`) -/

/-- Drop the maximal leading run of characters satisfying `p`. -/
def dropLeadP (p : Char → Bool) : List Char → List Char
  | [] => []
  | c :: r => if p c then dropLeadP p r else c :: r

/-- Drop the maximal trailing run of characters satisfying `p`. -/
def dropTrailP (p : Char → Bool) : List Char → List Char
  | [] => []
  | c :: r =>
    let t := dropTrailP p r
    if t.isEmpty then (if p c then [] else [c]) else c :: t

/-- Python `str.strip()`. -/
def pyStrip (s : List Char) : List Char := dropTrailP isSpaceB (dropLeadP isSpaceB s)

/-- First element, with a default for the (unused) empty case; Python `row[0]`. -/
def hdD (d : α) : List α → α
  | [] => d
  | a :: _ => a

/-- Last element, with a default for the (unused) empty case; Python `row[-1]`. -/
def lsD (d : α) : List α → α
  | [] => d
  | [a] => a
  | _ :: a :: r => lsD d (a :: r)

/-- Is `needle` a leading block of `hay`? -/
def leadsList : List Char → List Char → Bool
  | [], _ => true
  | _ :: _, [] => false
  | a :: as, b :: bs => a == b && leadsList as bs

/-- Python's substring test `needle in hay`. -/
def containsSub (needle : List Char) : List Char → Bool
  | [] => needle.isEmpty
  | c :: t => leadsList needle (c :: t) || containsSub needle t

/-! ### Decimal rendering of naturals (Python f-string `{n}`) -/

/-- Little-endian digit characters of `n`, with fuel (`n` itself suffices). -/
def natDigsAux : Nat → Nat → List Char
  | 0, _ => []
  | _ + 1, 0 => []
  | f + 1, n + 1 => Nat.digitChar ((n + 1) % 10) :: natDigsAux f ((n + 1) / 10)

/-- Decimal representation of a natural, as Python's `str(n)` / f-strings. -/
def natRepr (n : Nat) : List Char :=
  if n = 0 then ['0'] else (natDigsAux n n).reverse

/-! ### `sanitize_column` (source lines 10-34) -/

/-- The positional fallback identifier `col_<index+1>`. -/
def colName (index : Nat) : List Char :=
  'c' :: 'o' :: 'l' :: '_' :: natRepr (index + 1)

/-- Per-character effect of lines 19-21: `lower()`, `replace(" ", "_")`,
`re.sub(r"[^a-z0-9_]", "_", ·)`.  All three steps act characterwise. -/
def sanChar (c : Char) : Char :=
  let c1 := lowerChar c
  let c2 := if c1 == ' ' then '_' else c1
  if allowedB c2 then c2 else '_'

/-- `re.match(r"^[0-9]", name)` of line 23: does the name start with a digit? -/
def leadDigit : List Char → Bool
  | [] => false
  | c :: _ => isDigitB c

/-- `re.sub(r"_+", "_", name)` of line 26: collapse runs of underscores. -/
def collapseU : List Char → List Char
  | [] => []
  | [c] => [c]
  | c1 :: c2 :: r =>
    if c1 == '_' && c2 == '_' then collapseU (c2 :: r) else c1 :: collapseU (c2 :: r)

/-- Lines 12-26 of `sanitize_column`: everything before the uniqueness loop. -/
def sanitizeCore (name : List Char) (index : Nat) : List Char :=
  let n1 := pyStrip name
  let n2 := if n1.isEmpty then colName index else n1
  let n3 := n2.map sanChar
  let n4 := if leadDigit n3 then 'c' :: '_' :: n3 else n3
  let n5 := dropTrailP (fun c => c == '_') (dropLeadP (fun c => c == '_') (collapseU n4))
  if n5.isEmpty then colName index else n5

/-- The candidate `f"{base}_{suffix}"` tried by the uniqueness loop. -/
def candName (base : List Char) (suffix : Nat) : List Char :=
  base ++ '_' :: natRepr suffix

/-- Length of the longest name in `used`. -/
def maxLen (used : List (List Char)) : Nat :=
  used.foldr (fun u m => max u.length m) 0

/-- The `while name in used` loop of lines 28-32, with explicit fuel.  The
fuel below is large enough that the fuel-exhausted fallback is itself fresh
(its decimal suffix is longer than every member of `used`), so the function
agrees with the unbounded Python loop on every input. -/
def uniquifyFrom (base : List Char) (used : List (List Char)) : Nat → Nat → List Char
  | 0, k => candName base k
  | f + 1, k =>
    if candName base k ∈ used then uniquifyFrom base used f (k + 1) else candName base k

/-- Lines 27-33: return `base` unless taken, else the first fresh `base_<k>`. -/
def uniquify (base : List Char) (used : List (List Char)) : List Char :=
  if base ∈ used then uniquifyFrom base used (10 ^ (maxLen used + 1)) 1 else base

/-- `sanitize_column(name, used, index)`; the caller threads `used`. -/
def sanitize_column (name : List Char) (used : List (List Char)) (index : Nat) : List Char :=
  uniquify (sanitizeCore name index) used

/-- The comprehension of line 43 with its shared mutable `used` set made
explicit: sanitize each raw header in order, accumulating used names. -/
def sanitizeList : List (List Char) → List (List Char) → Nat → List (List Char)
  | [], _, _ => []
  | h :: t, used, i =>
    let s := sanitize_column h used i
    s :: sanitizeList t (used ++ [s]) (i + 1)

/-- `infer_headers` (lines 37-44) applied to the raw header row. -/
def infer_headers (raw_headers : List (List Char)) : List (List Char) :=
  sanitizeList raw_headers [] 0

/-! ### Type inference (`infer_column_types`, lines 55-68) -/

inductive ColType where
  | real
  | integer
  | text
deriving DecidableEq

def cpuTimeStem : List Char := ['c', 'p', 'u', '_', 't', 'i', 'm', 'e']

def timeSelfStem : List Char := ['t', 'i', 'm', 'e', '_', 's', 'e', 'l', 'f']

def timeChildrenStem : List Char :=
  ['t', 'i', 'm', 'e', '_', 'c', 'h', 'i', 'l', 'd', 'r', 'e', 'n']

def timeTotalStem : List Char := ['t', 'i', 'm', 'e', '_', 't', 'o', 't', 'a', 'l']

def pctCpuStem : List Char := ['%', ' ', 'c', 'p', 'u']

def indexStem : List Char := ['i', 'n', 'd', 'e', 'x']

/-- Type assigned to one header name (lines 58-67).  The Python dict maps
each header name to exactly this value, so `column_types.get(h, "TEXT")`
for `h` in `headers` is `inferType h`. -/
def inferType (h : List Char) : ColType :=
  let l := h.map lowerChar
  if containsSub cpuTimeStem l || containsSub timeSelfStem l ||
      containsSub timeChildrenStem l || containsSub timeTotalStem l ||
      containsSub pctCpuStem l then
    ColType.real
  else if containsSub indexStem l then ColType.integer
  else ColType.text

/-- `infer_column_types` as the positional list of per-header types. -/
def infer_column_types (headers : List (List Char)) : List ColType :=
  headers.map inferType

/-! ### `extract_index_number` (lines 47-52) -/

/-- `int(...)` on a digit group. -/
def digitsVal (ds : List Char) : Nat :=
  ds.foldl (fun a c => 10 * a + (c.toNat - 48)) 0

/-- `re.search(r'\[(\d+)\]', value)`: scan left to right; at each `[`, the
greedy digit run must be nonempty and be followed immediately by `]`,
otherwise the scan resumes at the next position. -/
def findBracket : List Char → Option Nat
  | [] => none
  | c :: rest =>
    if c == '[' then
      match rest.dropWhile isDigitB with
      | ']' :: _ =>
        if (rest.takeWhile isDigitB).isEmpty then findBracket rest
        else some (digitsVal (rest.takeWhile isDigitB))
      | _ => findBracket rest
    else findBracket rest

/-- `extract_index_number(value)` (lines 47-52). -/
def extract_index_number (value : List Char) : Option Nat :=
  if value.isEmpty then none else findBracket value

/-! ### Python `float()` on decimal literals

Modelled from the `float(val)` call on line 131.  The model covers sign,
integer/fraction parts and exponent, with surrounding whitespace stripped;
`inf`/`nan` spellings and digit-group underscores of the builtin are outside
the inputs this loader meets and are not modelled (they would only turn a
few extra inputs from `none` into `some`). -/

/-- Optional leading sign; `true` means negative. -/
def readSign : List Char → Bool × List Char
  | '-' :: r => (true, r)
  | '+' :: r => (false, r)
  | s => (false, s)

/-- Mantissa: `digits`, `digits.digits`, `digits.` or `.digits`. -/
def pyFloatMant (s : List Char) : Option (ℚ × List Char) :=
  match s.dropWhile isDigitB with
  | '.' :: r2 =>
    if (s.takeWhile isDigitB).isEmpty && (r2.takeWhile isDigitB).isEmpty then none
    else
      some ((digitsVal (s.takeWhile isDigitB) : ℚ) +
        (digitsVal (r2.takeWhile isDigitB) : ℚ) / (10 : ℚ) ^ (r2.takeWhile isDigitB).length,
        r2.dropWhile isDigitB)
  | _ =>
    if (s.takeWhile isDigitB).isEmpty then none
    else some ((digitsVal (s.takeWhile isDigitB) : ℚ), s.dropWhile isDigitB)

/-- Optional exponent after the mantissa; the remainder must be consumed. -/
def pyFloatExp (q : ℚ) : List Char → Option ℚ
  | [] => some q
  | c :: r =>
    if c == 'e' || c == 'E' then
      let sr := readSign r
      match sr.2.dropWhile isDigitB with
      | [] =>
        if (sr.2.takeWhile isDigitB).isEmpty then none
        else
          some (if sr.1 then q / (10 : ℚ) ^ digitsVal (sr.2.takeWhile isDigitB)
                else q * (10 : ℚ) ^ digitsVal (sr.2.takeWhile isDigitB))
      | _ => none
    else none

/-- `float(val)`, returning `none` where Python raises `ValueError`. -/
def pyFloat (s : List Char) : Option ℚ :=
  let t := pyStrip s
  let sg := readSign t
  match pyFloatMant sg.2 with
  | none => none
  | some (q, r) => (pyFloatExp q r).map (fun x => if sg.1 then -x else x)

/-! ### Values and coercion (lines 124-139) -/

inductive SqlValue where
  | null
  | real (q : ℚ)
  | intg (n : Nat)
  | text (s : List Char)
deriving DecidableEq

/-- A nullable integer as stored (`current_parent_index` when appended). -/
def optVal : Option Nat → SqlValue
  | none => SqlValue.null
  | some n => SqlValue.intg n

/-- One iteration of the conversion loop of lines 125-139. -/
def convertValue (ty : ColType) (val : List Char) : SqlValue :=
  if val.isEmpty || (pyStrip val).isEmpty then SqlValue.null
  else
    match ty with
    | ColType.real =>
      match pyFloat val with
      | some q => SqlValue.real q
      | none => SqlValue.null
    | ColType.integer =>
      match extract_index_number val with
      | some n => SqlValue.intg n
      | none => SqlValue.null
    | ColType.text => SqlValue.text val

/-! ### Row classification and processing (`insert_rows`, lines 96-159) -/

/-- Lines 107-110: pad with empty fields or trim to the header length. -/
def padTrim (n : Nat) (row : List (List Char)) : List (List Char) :=
  if row.length < n then row ++ List.replicate (n - row.length) [] else row.take n

/-- `is_empty_row` (lines 80-82). -/
def is_empty_row (row : List (List Char)) : Bool :=
  row.all (fun f => f.isEmpty || (pyStrip f).isEmpty)

/-- `^\[\d+\]$`: an entire field of the form `[digits]`. -/
def matchBracketFull (s : List Char) : Bool :=
  match s with
  | '[' :: t => !(t.takeWhile isDigitB).isEmpty && (t.dropWhile isDigitB == [']'])
  | _ => false

/-- `is_parent_row` (lines 85-93). -/
def is_parent_row (row : List (List Char)) : Bool :=
  if row.length < 2 then false
  else matchBracketFull (pyStrip (hdD [] row)) && matchBracketFull (pyStrip (lsD [] row))

/-- The body of the `for row in rows_iter` loop (lines 105-149), minus the
batching: returns the new `current_parent_index` and the converted tuple
(`none` for a skipped separator row). -/
def processRow (headers : List (List Char)) (tracker : Option Nat)
    (raw : List (List Char)) : Option Nat × Option (List SqlValue) :=
  let row := padTrim headers.length raw
  if is_empty_row row then (none, none)
  else
    let tracker2 :=
      if is_parent_row row then extract_index_number (lsD [] row) else tracker
    let conv := (headers.zip row).map (fun p => convertValue (inferType p.1) p.2)
    let pval := if is_parent_row row then SqlValue.null else optVal tracker2
    (tracker2, some (conv ++ [pval]))

/-- The stream of converted tuples, batch-size independent: the reference
behaviour the batched sink is proved to produce. -/
def entriesOf (headers : List (List Char)) (tracker : Option Nat) :
    List (List (List Char)) → List (List SqlValue)
  | [] => []
  | r :: rs =>
    match processRow headers tracker r with
    | (tr, none) => entriesOf headers tr rs
    | (tr, some e) => e :: entriesOf headers tr rs

/-- Mutable state of `insert_rows`: rows already committed to the table,
the client-side batch buffer, the running `count`, and
`current_parent_index`. -/
structure LoadState where
  db : List (List SqlValue)
  batch : List (List SqlValue)
  count : Nat
  tracker : Option Nat
deriving DecidableEq

/-- One loop iteration of lines 105-154 including the batch flush. -/
def stepRow (headers : List (List Char)) (bs : Nat) (st : LoadState)
    (raw : List (List Char)) : LoadState :=
  match processRow headers st.tracker raw with
  | (tr, none) => { st with tracker := tr }
  | (tr, some e) =>
    let b := st.batch ++ [e]
    if bs ≤ b.length then
      { db := st.db ++ b, batch := [], count := st.count + b.length, tracker := tr }
    else { st with batch := b, tracker := tr }

/-- The whole `for` loop. -/
def runRows (headers : List (List Char)) (bs : Nat) :
    List (List (List Char)) → LoadState → LoadState
  | [], st => st
  | r :: rs, st => runRows headers bs rs (stepRow headers bs st r)

/-- `insert_rows` (lines 96-159): final table contents and returned count,
including the final partial-batch flush of lines 155-158. -/
def insert_rows (headers : List (List Char)) (rows : List (List (List Char)))
    (bs : Nat) : List (List SqlValue) × Nat :=
  let st := runRows headers bs rows ⟨[], [], 0, none⟩
  if st.batch.isEmpty then (st.db, st.count)
  else (st.db ++ st.batch, st.count + st.batch.length)

/-! ### `main` (lines 162-227): configuration checks, load, index builds -/

/-- The injected parent-link column name of `create_table` (line 75). -/
def parentIndexCol : List Char :=
  ['p', 'a', 'r', 'e', 'n', 't', '_', 'i', 'n', 'd', 'e', 'x']

def cpuTimeTotalCol : List Char :=
  ['c', 'p', 'u', '_', 't', 'i', 'm', 'e', '_', 't', 'o', 't', 'a', 'l']

/-- The four secondary structures attempted after the bulk load. -/
inductive IdxTag where
  | nameIdx
  | selfIdx
  | cpuIdx
  | parentLinkIdx
deriving DecidableEq

/-- Lines 197-222: the four independent `try: CREATE INDEX ... except: pass`
attempts.  `fails i` says whether the storage engine rejects attempt `i`;
each rejection is swallowed and the remaining attempts still run. -/
def buildIndexes (headers : List (List Char)) (fails : Nat → Bool) : List IdxTag :=
  (if fails 0 then [] else [IdxTag.nameIdx]) ++
    (if indexStem ∈ headers then (if fails 1 then [] else [IdxTag.selfIdx]) else []) ++
    (if cpuTimeTotalCol ∈ headers then (if fails 2 then [] else [IdxTag.cpuIdx]) else []) ++
    (if fails 3 then [] else [IdxTag.parentLinkIdx])

/-- Fatal configuration failures of `main` (`raise SystemExit`, non-zero
exit, lines 175-176 and 187-188). -/
inductive LoadErr where
  | missingInput
  | emptyHeader
deriving DecidableEq

/-- Outcome of a successful load: created schema, table contents, the count
reported by `insert_rows`, and the secondary structures built. -/
structure LoadResult where
  schema : List (List Char)
  rows : List (List SqlValue)
  total : Nat
  indexes : List IdxTag
deriving DecidableEq

/-- `main` (lines 162-227) over an abstract input: whether the input path
exists, the parsed CSV rows (first row = raw headers), the batch size and
the index-failure oracle.  An `Except.error` is a `SystemExit` before any
row is written to the destination table. -/
def mainModel (inputExists : Bool) (content : List (List (List Char)))
    (bs : Nat) (idxFails : Nat → Bool) : Except LoadErr LoadResult :=
  if inputExists = false then Except.error LoadErr.missingInput
  else
    match content with
    | [] => Except.error LoadErr.emptyHeader
    | hdr :: dataRows =>
      let headers := infer_headers hdr
      if headers.isEmpty then Except.error LoadErr.emptyHeader
      else
        let res := insert_rows headers dataRows bs
        Except.ok ⟨headers ++ [parentIndexCol], res.1, res.2, buildIndexes headers idxFails⟩

/-- No two adjacent underscores. -/
def noDD : List Char → Bool
  | c1 :: c2 :: r => !(c1 == '_' && c2 == '_') && noDD (c2 :: r)
  | _ => true

/-- Predicate bundling the invariants every sanitized identifier enjoys
(used to reason about re-sanitization): nonempty, only `[a-z0-9_]`
characters, no doubled underscore, no underscore at either end. -/
def shapeOK (s : List Char) : Prop :=
  s ≠ [] ∧ (∀ c ∈ s, allowedB c = true) ∧ noDD s = true
    ∧ ¬ hdD 'a' s = '_' ∧ ¬ lsD 'a' s = '_'

/-! ### Basic list helper lemmas -/

theorem lsD_cons {d a : α} {r : List α} (h : r ≠ []) : lsD d (a :: r) = lsD d r := by
  cases r with
  | nil => exact absurd rfl h
  | cons b t => rfl

theorem lsD_append_cons (d : α) (xs : List α) (y : α) (ys : List α) :
    lsD d (xs ++ y :: ys) = lsD d (y :: ys) := by
  induction xs with
  | nil => rfl
  | cons x t ih =>
    rw [List.cons_append, lsD_cons (by simp), ih]

theorem hdD_append {s t : List α} (d : α) (h : s ≠ []) : hdD d (s ++ t) = hdD d s := by
  cases s with
  | nil => exact absurd rfl h
  | cons a r => rfl

theorem lsD_mem (d : α) : ∀ {s : List α}, s ≠ [] → lsD d s ∈ s := by
  intro s
  induction s with
  | nil => intro h; exact absurd rfl h
  | cons a r ih =>
    intro _
    cases r with
    | nil => simp [lsD]
    | cons b t =>
      rw [lsD_cons (by simp)]
      exact List.mem_cons_of_mem a (ih (by simp))

theorem padTrim_length (n : Nat) (row : List (List Char)) : (padTrim n row).length = n := by
  unfold padTrim
  split
  · simp; omega
  · simp; omega

/-! ### `processRow` helper lemmas -/

theorem processRow_sep {headers : List (List Char)} {tracker : Option Nat}
    {raw : List (List Char)} (h : is_empty_row (padTrim headers.length raw) = true) :
    processRow headers tracker raw = (none, none) := by
  unfold processRow
  simp [h]

theorem processRow_parent {headers : List (List Char)} {tracker : Option Nat}
    {raw : List (List Char)} (h1 : is_empty_row (padTrim headers.length raw) = false)
    (h2 : is_parent_row (padTrim headers.length raw) = true) :
    processRow headers tracker raw =
      (extract_index_number (lsD [] (padTrim headers.length raw)),
        some (((headers.zip (padTrim headers.length raw)).map
          (fun p => convertValue (inferType p.1) p.2)) ++ [SqlValue.null])) := by
  unfold processRow
  simp [h1, h2]

theorem processRow_child {headers : List (List Char)} {tracker : Option Nat}
    {raw : List (List Char)} (h1 : is_empty_row (padTrim headers.length raw) = false)
    (h2 : is_parent_row (padTrim headers.length raw) = false) :
    processRow headers tracker raw =
      (tracker,
        some (((headers.zip (padTrim headers.length raw)).map
          (fun p => convertValue (inferType p.1) p.2)) ++ [optVal tracker])) := by
  unfold processRow
  simp [h1, h2]

/-- C1: a Parent-classified row is persisted with a null parent link and sets
the tracker to the bracket value of its (padded) last field; a Child row is
persisted with the tracker's current value and leaves the tracker unchanged;
a Separator row persists nothing and resets the tracker to null. -/
theorem c1_hierarchy_invariant (headers : List (List Char)) (tracker : Option Nat)
    (raw : List (List Char)) :
    (is_empty_row (padTrim headers.length raw) = true →
      processRow headers tracker raw = (none, none))
    ∧ (is_empty_row (padTrim headers.length raw) = false →
        is_parent_row (padTrim headers.length raw) = true →
        (processRow headers tracker raw).1
            = extract_index_number (lsD [] (padTrim headers.length raw))
          ∧ ∃ e, (processRow headers tracker raw).2 = some e
              ∧ lsD SqlValue.null e = SqlValue.null)
    ∧ (is_empty_row (padTrim headers.length raw) = false →
        is_parent_row (padTrim headers.length raw) = false →
        (processRow headers tracker raw).1 = tracker
          ∧ ∃ e, (processRow headers tracker raw).2 = some e
              ∧ lsD SqlValue.null e = optVal tracker) := by
  refine ⟨fun h => processRow_sep h, fun h1 h2 => ?_, fun h1 h2 => ?_⟩
  · rw [processRow_parent h1 h2]
    refine ⟨rfl, _, rfl, ?_⟩
    rw [lsD_append_cons]
    rfl
  · rw [processRow_child h1 h2]
    refine ⟨rfl, _, rfl, ?_⟩
    rw [lsD_append_cons]
    rfl

/-- Witness for C1, at a concrete Child-classified row with an open parent. -/
theorem c1_hierarchy_invariant_case :
    (processRow [['a'], ['b']] (some 5) [['x'], ['y']]).1 = some 5
    ∧ ∃ e, (processRow [['a'], ['b']] (some 5) [['x'], ['y']]).2 = some e
        ∧ lsD SqlValue.null e = optVal (some 5) :=
  (c1_hierarchy_invariant [['a'], ['b']] (some 5) [['x'], ['y']]).2.2 (by decide) (by decide)

/-- C10: separator detection operates on the padded/truncated row: if the
first header-length fields are all blank, the row produces no entry and
resets the tracker, whatever the dropped extra fields contain. -/
theorem c10_separator_padded (headers : List (List Char)) (tracker : Option Nat)
    (raw : List (List Char)) :
    is_empty_row (padTrim headers.length raw) = true →
      processRow headers tracker raw = (none, none) :=
  fun h => processRow_sep h

/-- Witness for C10: the original row has a non-blank third field, but its
first two (header-length) fields are blank, so it is a Separator. -/
theorem c10_separator_padded_case :
    processRow [['a'], ['b']] (some 3) [[], [' '], ['x']] = (none, none) :=
  c10_separator_padded [['a'], ['b']] (some 3) [[], [' '], ['x']] (by decide)

/-- Counterexample to C2 as stated: the row `["[1]", "x", "[2]"]` has
original first and last fields matching `^\[\d+\]$`, so the claim classifies
it Parent (null parent link); the code truncates to header length 2 first,
classifies it Child, and persists parent link 7 from the open parent. -/
theorem c2_counterexample :
    matchBracketFull (pyStrip (hdD [] [['[', '1', ']'], ['x'], ['[', '2', ']']])) = true
    ∧ matchBracketFull (pyStrip (lsD [] [['[', '1', ']'], ['x'], ['[', '2', ']']])) = true
    ∧ entriesOf [indexStem, ['n', 'a', 'm', 'e']] none
        [[['[', '7', ']'], ['[', '7', ']']], [['[', '1', ']'], ['x'], ['[', '2', ']']]]
      = [[SqlValue.intg 7, SqlValue.text ['[', '7', ']'], SqlValue.null],
         [SqlValue.intg 1, SqlValue.text ['x'], SqlValue.intg 7]] := by
  refine ⟨by decide, by decide, by decide⟩

/-- C2 (amended): row classification pattern-matches the fields of the row
after padding/truncation to header length — a row is classified Parent iff
the padded/truncated row has at least two fields and its first and last
fields, stripped, both match `^\[\d+\]$`. -/
theorem c2_padded_classification (headers : List (List Char)) (raw : List (List Char)) :
    is_parent_row (padTrim headers.length raw)
      = (decide (2 ≤ headers.length)
          && matchBracketFull (pyStrip (hdD [] (padTrim headers.length raw)))
          && matchBracketFull (pyStrip (lsD [] (padTrim headers.length raw)))) := by
  unfold is_parent_row
  rw [padTrim_length]
  by_cases h : headers.length < 2
  · rw [if_pos h]
    have : decide (2 ≤ headers.length) = false := by simp; omega
    rw [this]
    simp
  · rw [if_neg h]
    have : decide (2 ≤ headers.length) = true := by simp; omega
    rw [this]
    simp

/-! ### The batched sink refines the batch-free entry stream -/

theorem processRow_none_iff {headers : List (List Char)} {tracker : Option Nat}
    {raw : List (List Char)} :
    (processRow headers tracker raw).2 = none
      ↔ is_empty_row (padTrim headers.length raw) = true := by
  cases hsep : is_empty_row (padTrim headers.length raw) with
  | true =>
    rw [processRow_sep hsep]
    simp
  | false =>
    unfold processRow
    simp [hsep]

theorem runRows_acc (headers : List (List Char)) (bs : Nat) :
    ∀ (rows : List (List (List Char))) (st : LoadState),
      ((runRows headers bs rows st).db ++ (runRows headers bs rows st).batch
          = st.db ++ st.batch ++ entriesOf headers st.tracker rows)
      ∧ ((runRows headers bs rows st).count + (runRows headers bs rows st).batch.length
          = st.count + st.batch.length + (entriesOf headers st.tracker rows).length) := by
  intro rows
  induction rows with
  | nil => intro st; simp [runRows, entriesOf]
  | cons r rs ih =>
    intro st
    rcases hp : processRow headers st.tracker r with ⟨tr, oe⟩
    cases oe with
    | none =>
      have hstep : stepRow headers bs st r = { st with tracker := tr } := by
        unfold stepRow
        rw [hp]
      rw [runRows, hstep]
      have h := ih { st with tracker := tr }
      simp only [entriesOf, hp]
      simpa using h
    | some e =>
      have hstep : stepRow headers bs st r
          = if bs ≤ (st.batch ++ [e]).length then
              (⟨st.db ++ (st.batch ++ [e]), [],
                st.count + (st.batch ++ [e]).length, tr⟩ : LoadState)
            else (⟨st.db, st.batch ++ [e], st.count, tr⟩ : LoadState) := by
        unfold stepRow
        rw [hp]
      rw [runRows, hstep]
      simp only [entriesOf, hp]
      by_cases hflush : bs ≤ (st.batch ++ [e]).length
      · rw [if_pos hflush]
        rcases ih ⟨st.db ++ (st.batch ++ [e]), [],
          st.count + (st.batch ++ [e]).length, tr⟩ with ⟨h1, h2⟩
        constructor
        · rw [h1]; simp
        · rw [h2]; simp; omega
      · rw [if_neg hflush]
        rcases ih ⟨st.db, st.batch ++ [e], st.count, tr⟩ with ⟨h1, h2⟩
        constructor
        · rw [h1]; simp
        · rw [h2]; simp; omega

theorem insert_rows_eq (headers : List (List Char)) (rows : List (List (List Char)))
    (bs : Nat) :
    insert_rows headers rows bs
      = (entriesOf headers none rows, (entriesOf headers none rows).length) := by
  unfold insert_rows
  rcases runRows_acc headers bs rows ⟨[], [], 0, none⟩ with ⟨hdb, hcnt⟩
  simp only [List.nil_append, List.length_nil, Nat.zero_add] at hdb hcnt
  by_cases hb : (runRows headers bs rows ⟨[], [], 0, none⟩).batch.isEmpty
  · rw [if_pos hb]
    have hbnil : (runRows headers bs rows ⟨[], [], 0, none⟩).batch = [] := by
      simpa [List.isEmpty_iff] using hb
    rw [hbnil, List.append_nil] at hdb
    rw [hbnil, List.length_nil, Nat.add_zero] at hcnt
    rw [hdb, hcnt]
  · rw [if_neg hb]
    rw [hdb, hcnt]

theorem entriesOf_count (headers : List (List Char)) :
    ∀ (rows : List (List (List Char))) (t : Option Nat),
      (entriesOf headers t rows).length
        + (rows.filter (fun r => is_empty_row (padTrim headers.length r))).length
        = rows.length := by
  intro rows
  induction rows with
  | nil => intro t; simp [entriesOf]
  | cons r rs ih =>
    intro t
    cases hsep : is_empty_row (padTrim headers.length r) with
    | true =>
      have hp : processRow headers t r = (none, none) := processRow_sep hsep
      rw [show entriesOf headers t (r :: rs) = entriesOf headers none rs from by
        simp only [entriesOf, hp]]
      have hf : List.filter (fun r => is_empty_row (padTrim headers.length r)) (r :: rs)
          = r :: List.filter (fun r => is_empty_row (padTrim headers.length r)) rs := by
        simp [List.filter, hsep]
      rw [hf]
      have := ih none
      simp only [List.length_cons]
      omega
    | false =>
      rcases hp : processRow headers t r with ⟨tr, oe⟩
      cases oe with
      | none =>
        exfalso
        have := processRow_none_iff.mp (by rw [hp])
        rw [hsep] at this
        exact Bool.false_ne_true this
      | some e =>
        rw [show entriesOf headers t (r :: rs) = e :: entriesOf headers tr rs from by
          simp only [entriesOf, hp]]
        have hf : List.filter (fun r => is_empty_row (padTrim headers.length r)) (r :: rs)
            = List.filter (fun r => is_empty_row (padTrim headers.length r)) rs := by
          simp [List.filter, hsep]
        rw [hf]
        have := ih tr
        simp only [List.length_cons]
        omega

/-- C7: the persisted table contents (and the returned count) are identical
for batch size 1 and batch size 10000, for every input stream. -/
theorem c7_batch_size_invariant (headers : List (List Char))
    (rows : List (List (List Char))) :
    insert_rows headers rows 1 = insert_rows headers rows 10000 := by
  rw [insert_rows_eq, insert_rows_eq]

theorem sanitizeList_length :
    ∀ (hs used : List (List Char)) (i : Nat), (sanitizeList hs used i).length = hs.length := by
  intro hs
  induction hs with
  | nil => intro used i; rfl
  | cons h t ih =>
    intro used i
    simp only [sanitizeList, List.length_cons, ih]

/-- C4: the count returned by `insert_rows` is the number of data rows minus
the number of separator rows, equals the number of persisted entries, and a
stream with no data rows (header only) yields zero entries and a valid,
queryable empty table. -/
theorem c4_entry_count (headers : List (List Char)) (bs : Nat)
    (rows : List (List (List Char))) (fp : Nat → Bool) :
    ((insert_rows headers rows bs).2
        = rows.length
          - (rows.filter (fun r => is_empty_row (padTrim headers.length r))).length)
    ∧ (insert_rows headers rows bs).1.length = (insert_rows headers rows bs).2
    ∧ insert_rows headers [] bs = ([], 0)
    ∧ ∀ hdr : List (List Char), hdr ≠ [] →
        mainModel true [hdr] bs fp
          = Except.ok ⟨infer_headers hdr ++ [parentIndexCol], [], 0,
              buildIndexes (infer_headers hdr) fp⟩ := by
  refine ⟨?_, ?_, ?_, ?_⟩
  · rw [insert_rows_eq]
    have h := entriesOf_count headers rows none
    simp only []
    omega
  · rw [insert_rows_eq]
  · rw [insert_rows_eq]
    rfl
  · intro hdr hne
    have hlen : (infer_headers hdr).length = hdr.length := sanitizeList_length hdr [] 0
    have hne2 : (infer_headers hdr).isEmpty = false := by
      cases hh : infer_headers hdr with
      | nil =>
        exfalso
        rw [hh] at hlen
        cases hdr with
        | nil => exact hne rfl
        | cons a b => simp at hlen
      | cons a b => rfl
    unfold mainModel
    rw [if_neg (by simp)]
    simp only [hne2, Bool.false_eq_true, if_false, insert_rows_eq]
    rfl

/-- Witness for C4's header-only conjunct at a concrete one-column header. -/
theorem c4_entry_count_case :
    mainModel true [[['a']]] 3 (fun _ => false)
      = Except.ok ⟨infer_headers [['a']] ++ [parentIndexCol], [], 0,
          buildIndexes (infer_headers [['a']]) (fun _ => false)⟩ :=
  (c4_entry_count [['a']] 3 [] (fun _ => false)).2.2.2 [['a']] (by decide)

/-- C8: a missing input path or an empty header row is a fatal configuration
error: the model returns an error (non-zero exit), not a loaded table — no
rows are written to the destination. -/
theorem c8_fail_fast (content : List (List (List Char))) (bs : Nat) (fp : Nat → Bool) :
    mainModel false content bs fp = Except.error LoadErr.missingInput
    ∧ mainModel true [] bs fp = Except.error LoadErr.emptyHeader
    ∧ ∀ rest : List (List (List Char)),
        mainModel true ([] :: rest) bs fp = Except.error LoadErr.emptyHeader := by
  exact ⟨rfl, rfl, fun rest => rfl⟩

/-- C9: each of the four index attempts is independent and best-effort:
an attempt succeeds iff its own failure flag is unset (and its guard column
exists), regardless of the other attempts, and the loaded schema, rows and
count are unaffected by index failures. -/
theorem c9_index_best_effort (headers : List (List Char)) (fails fails2 : Nat → Bool)
    (inputExists : Bool) (content : List (List (List Char))) (bs : Nat) :
    (IdxTag.nameIdx ∈ buildIndexes headers fails ↔ fails 0 = false)
    ∧ (IdxTag.selfIdx ∈ buildIndexes headers fails
        ↔ indexStem ∈ headers ∧ fails 1 = false)
    ∧ (IdxTag.cpuIdx ∈ buildIndexes headers fails
        ↔ cpuTimeTotalCol ∈ headers ∧ fails 2 = false)
    ∧ (IdxTag.parentLinkIdx ∈ buildIndexes headers fails ↔ fails 3 = false)
    ∧ (mainModel inputExists content bs fails).map (fun r => (r.schema, r.rows, r.total))
        = (mainModel inputExists content bs fails2).map (fun r => (r.schema, r.rows, r.total)) := by
  refine ⟨?_, ?_, ?_, ?_, ?_⟩
  · unfold buildIndexes
    cases hf : fails 0 <;>
      by_cases h1 : indexStem ∈ headers <;>
      by_cases h2 : cpuTimeTotalCol ∈ headers <;>
      cases hf1 : fails 1 <;> cases hf2 : fails 2 <;> cases hf3 : fails 3 <;>
      simp [h1, h2, List.mem_append]
  · unfold buildIndexes
    cases hf : fails 0 <;>
      by_cases h1 : indexStem ∈ headers <;>
      by_cases h2 : cpuTimeTotalCol ∈ headers <;>
      cases hf1 : fails 1 <;> cases hf2 : fails 2 <;> cases hf3 : fails 3 <;>
      simp [h1, h2, List.mem_append]
  · unfold buildIndexes
    cases hf : fails 0 <;>
      by_cases h1 : indexStem ∈ headers <;>
      by_cases h2 : cpuTimeTotalCol ∈ headers <;>
      cases hf1 : fails 1 <;> cases hf2 : fails 2 <;> cases hf3 : fails 3 <;>
      simp [h1, h2, List.mem_append]
  · unfold buildIndexes
    cases hf : fails 0 <;>
      by_cases h1 : indexStem ∈ headers <;>
      by_cases h2 : cpuTimeTotalCol ∈ headers <;>
      cases hf1 : fails 1 <;> cases hf2 : fails 2 <;> cases hf3 : fails 3 <;>
      simp [h1, h2, List.mem_append]
  · cases inputExists with
    | false => rfl
    | true =>
      cases content with
      | nil => rfl
      | cons hdr dataRows =>
        unfold mainModel
        by_cases he : (infer_headers hdr).isEmpty <;> simp [he, Except.map]

/-! ### Value coercion lemmas -/

theorem findBracket_no_open {s : List Char} (h : ∀ c ∈ s, ¬ c = '[') :
    findBracket s = none := by
  induction s with
  | nil => rfl
  | cons c r ih =>
    have hc : ¬ c = '[' := h c (by simp)
    unfold findBracket
    rw [if_neg (by simpa using hc)]
    exact ih (fun x hx => h x (by simp [hx]))

theorem pyStrip_nil_of_nil {v : List Char} (h : v.isEmpty = true) :
    (pyStrip v).isEmpty = true := by
  cases v with
  | nil => rfl
  | cons a r => simp at h

/-- C3: value coercion is total and type-directed.  Blank fields coerce to
null under every type; under REAL the field parses as a float or coerces to
null; under INTEGER the result is the first bracketed integer found anywhere
(null when the field has no `[`, even for a bare numeral); under TEXT the
field passes through; with the concrete instances named by the spec. -/
theorem c3_value_coercion :
    (∀ (ty : ColType) (v : List Char), (pyStrip v).isEmpty = true →
      convertValue ty v = SqlValue.null)
    ∧ (∀ v : List Char, (pyStrip v).isEmpty = false →
        convertValue ColType.real v
          = (pyFloat v).elim SqlValue.null SqlValue.real)
    ∧ (∀ v : List Char, (pyStrip v).isEmpty = false →
        convertValue ColType.integer v
          = (extract_index_number v).elim SqlValue.null SqlValue.intg)
    ∧ (∀ v : List Char, (∀ c ∈ v, ¬ c = '[') → extract_index_number v = none)
    ∧ (∀ v : List Char, (pyStrip v).isEmpty = false →
        convertValue ColType.text v = SqlValue.text v)
    ∧ convertValue ColType.integer ['[', '1', '9', '6', ']'] = SqlValue.intg 196
    ∧ convertValue ColType.integer ['a', 'b', 'c'] = SqlValue.null
    ∧ convertValue ColType.integer ['1', '2', '3'] = SqlValue.null
    ∧ convertValue ColType.real ['a', 'b', 'c'] = SqlValue.null
    ∧ convertValue ColType.real ['1', '2', '.', '5'] = SqlValue.real (25 / 2) := by
  refine ⟨?_, ?_, ?_, ?_, ?_, by decide, by decide, by decide, by decide, ?_⟩
  · intro ty v h
    unfold convertValue
    rw [if_pos (by simp [h])]
  · intro v h
    have hv : v.isEmpty = false := by
      cases hv : v.isEmpty with
      | true => rw [pyStrip_nil_of_nil hv] at h; exact absurd h (by simp)
      | false => rfl
    unfold convertValue
    rw [if_neg (by simp [hv, h])]
    cases pyFloat v <;> rfl
  · intro v h
    have hv : v.isEmpty = false := by
      cases hv : v.isEmpty with
      | true => rw [pyStrip_nil_of_nil hv] at h; exact absurd h (by simp)
      | false => rfl
    unfold convertValue
    rw [if_neg (by simp [hv, h])]
    cases extract_index_number v <;> rfl
  · intro v h
    unfold extract_index_number
    cases hv : v.isEmpty with
    | true => rw [if_pos rfl]
    | false =>
      rw [if_neg (by simp [hv])]
      exact findBracket_no_open h
  · intro v h
    have hv : v.isEmpty = false := by
      cases hv : v.isEmpty with
      | true => rw [pyStrip_nil_of_nil hv] at h; exact absurd h (by simp)
      | false => rfl
    unfold convertValue
    rw [if_neg (by simp [hv, h])]
  · have hq : convertValue ColType.real ['1', '2', '.', '5']
        = SqlValue.real (((12 : Nat) : ℚ) + ((5 : Nat) : ℚ) / (10 : ℚ) ^ (1 : Nat)) := rfl
    rw [hq]
    norm_num

/-- Witness for C3, discharging each hypothesis at a concrete field. -/
theorem c3_value_coercion_cases :
    convertValue ColType.text [' '] = SqlValue.null
    ∧ convertValue ColType.real ['x', 'y']
        = (pyFloat ['x', 'y']).elim SqlValue.null SqlValue.real
    ∧ convertValue ColType.integer ['z']
        = (extract_index_number ['z']).elim SqlValue.null SqlValue.intg
    ∧ extract_index_number ['9', '9'] = none
    ∧ convertValue ColType.text ['h', 'i'] = SqlValue.text ['h', 'i'] :=
  ⟨c3_value_coercion.1 ColType.text [' '] (by decide),
    c3_value_coercion.2.1 ['x', 'y'] (by decide),
    c3_value_coercion.2.2.1 ['z'] (by decide),
    c3_value_coercion.2.2.2.1 ['9', '9'] (by decide),
    c3_value_coercion.2.2.2.2.1 ['h', 'i'] (by decide)⟩

/-! ### Character-level lemmas for the sanitizer -/

theorem allowed_sanChar (c : Char) : allowedB (sanChar c) = true := by
  have hdef : sanChar c
      = if allowedB (if lowerChar c == ' ' then '_' else lowerChar c) = true
        then (if lowerChar c == ' ' then '_' else lowerChar c) else '_' := rfl
  rw [hdef]
  by_cases h : allowedB (if lowerChar c == ' ' then '_' else lowerChar c) = true
  · rw [if_pos h]; exact h
  · rw [if_neg h]; decide

theorem isDigitB_allowed {c : Char} (h : isDigitB c = true) : allowedB c = true := by
  simp [allowedB, h]

theorem isDigitB_ne_underscore {c : Char} (h : isDigitB c = true) : ¬ c = '_' := by
  intro he
  subst he
  exact absurd h (by decide)

theorem allowed_not_space {c : Char} (h : allowedB c = true) : isSpaceB c = false := by
  cases hs : isSpaceB c with
  | false => rfl
  | true =>
    exfalso
    simp only [isSpaceB, Bool.or_eq_true, beq_iff_eq] at hs
    rcases hs with ((((h1 | h1) | h1) | h1) | h1) | h1 <;> subst h1 <;>
      exact absurd h (by decide)

theorem sanChar_allowed_fixed {c : Char} (h : allowedB c = true) : sanChar c = c := by
  have hdef : sanChar c
      = if allowedB (if lowerChar c == ' ' then '_' else lowerChar c) = true
        then (if lowerChar c == ' ' then '_' else lowerChar c) else '_' := rfl
  have hcases : (isLowerB c = true ∨ isDigitB c = true) ∨ c = '_' := by
    simpa [allowedB, Bool.or_eq_true, beq_iff_eq] using h
  rcases hcases with (hr | hr) | hr
  · have hb : 97 ≤ c.toNat ∧ c.toNat ≤ 122 := by
      simpa [isLowerB, Bool.and_eq_true, decide_eq_true_eq] using hr
    have hup : isUpperB c = false := by
      simp only [isUpperB, Bool.and_eq_false_iff]
      right
      simpa [decide_eq_false_iff_not] using (by omega : ¬ c.toNat ≤ 90)
    have hlow : lowerChar c = c := by simp [lowerChar, hup]
    have hsp : (c == ' ') = false := by
      simp only [beq_eq_false_iff_ne, ne_eq]
      intro he
      subst he
      exact absurd hb.1 (by decide)
    rw [hdef, hlow, hsp]
    simp [h]
  · have hb : 48 ≤ c.toNat ∧ c.toNat ≤ 57 := by
      simpa [isDigitB, Bool.and_eq_true, decide_eq_true_eq] using hr
    have hup : isUpperB c = false := by
      simp only [isUpperB, Bool.and_eq_false_iff]
      left
      simpa [decide_eq_false_iff_not] using (by omega : ¬ 65 ≤ c.toNat)
    have hlow : lowerChar c = c := by simp [lowerChar, hup]
    have hsp : (c == ' ') = false := by
      simp only [beq_eq_false_iff_ne, ne_eq]
      intro he
      subst he
      exact absurd hb.1 (by decide)
    rw [hdef, hlow, hsp]
    simp [h]
  · subst hr
    decide

/-! ### Stripping lemmas -/

theorem dropLeadP_sub {p : Char → Bool} :
    ∀ {s : List Char} {c : Char}, c ∈ dropLeadP p s → c ∈ s := by
  intro s
  induction s with
  | nil => intro c h; exact h
  | cons a r ih =>
    intro c h
    unfold dropLeadP at h
    by_cases ha : p a = true
    · rw [if_pos ha] at h
      exact List.mem_cons_of_mem a (ih h)
    · rw [if_neg ha] at h
      exact h

theorem dropTrailP_sub {p : Char → Bool} :
    ∀ {s : List Char} {c : Char}, c ∈ dropTrailP p s → c ∈ s := by
  intro s
  induction s with
  | nil => intro c h; exact h
  | cons a r ih =>
    intro c h
    unfold dropTrailP at h
    simp only [] at h
    by_cases ht : (dropTrailP p r).isEmpty = true
    · rw [if_pos ht] at h
      by_cases ha : p a = true
      · rw [if_pos ha] at h
        exact absurd h (List.not_mem_nil c)
      · rw [if_neg ha] at h
        simp only [List.mem_singleton] at h
        subst h
        exact List.mem_cons_self c r
    · rw [if_neg ht] at h
      rcases List.mem_cons.mp h with h | h
      · subst h; exact List.mem_cons_self c r
      · exact List.mem_cons_of_mem a (ih h)

theorem dropLeadP_all_fixed {p : Char → Bool} :
    ∀ {s : List Char}, (∀ c ∈ s, p c = false) → dropLeadP p s = s := by
  intro s
  induction s with
  | nil => intro _; rfl
  | cons a r ih =>
    intro h
    unfold dropLeadP
    rw [if_neg (by simp [h a (List.mem_cons_self a r)])]

theorem dropTrailP_all_fixed {p : Char → Bool} :
    ∀ {s : List Char}, (∀ c ∈ s, p c = false) → dropTrailP p s = s := by
  intro s
  induction s with
  | nil => intro _; rfl
  | cons a r ih =>
    intro h
    have hr : dropTrailP p r = r := ih (fun c hc => h c (List.mem_cons_of_mem a hc))
    unfold dropTrailP
    simp only [hr]
    cases r with
    | nil => simp [h a (List.mem_cons_self a [])]
    | cons b t => simp

theorem dropLeadP_cons_pos {p : Char → Bool} {a : Char} {r : List Char}
    (ha : p a = true) : dropLeadP p (a :: r) = dropLeadP p r := by
  simp [dropLeadP, ha]

theorem dropLeadP_cons_neg {p : Char → Bool} {a : Char} {r : List Char}
    (ha : p a = false) : dropLeadP p (a :: r) = a :: r := by
  simp [dropLeadP, ha]

theorem dropLeadP_head_fixed {p : Char → Bool} {s : List Char}
    (h : p (hdD 'a' s) = false) : dropLeadP p s = s := by
  cases s with
  | nil => rfl
  | cons a r => exact dropLeadP_cons_neg (show p a = false from h)

theorem dropTrailP_last_fixed {p : Char → Bool} :
    ∀ {s : List Char}, p (lsD 'a' s) = false → dropTrailP p s = s := by
  intro s
  induction s with
  | nil => intro _; rfl
  | cons a r ih =>
    intro h
    cases r with
    | nil =>
      unfold dropTrailP
      simp only [dropTrailP, List.isEmpty_nil, if_true]
      rw [if_neg (by simpa [lsD] using h)]
    | cons b t =>
      have hr : dropTrailP p (b :: t) = b :: t := by
        apply ih
        rwa [lsD_cons (by simp)] at h
      unfold dropTrailP
      simp only [hr]
      simp

theorem dropLeadP_head_prop {p : Char → Bool} :
    ∀ {s : List Char}, dropLeadP p s ≠ [] → p (hdD 'a' (dropLeadP p s)) = false := by
  intro s
  induction s with
  | nil => intro h; exact absurd rfl h
  | cons a r ih =>
    intro h
    by_cases ha : p a = true
    · rw [dropLeadP_cons_pos ha] at h ⊢
      exact ih h
    · rw [dropLeadP_cons_neg (by simpa using ha)]
      simpa [hdD] using ha

theorem dropTrailP_to_nil {p : Char → Bool} {s : List Char}
    (h : dropTrailP p s ≠ []) : s ≠ [] := by
  intro h0
  subst h0
  exact h rfl

theorem dropTrailP_head_prop {p : Char → Bool} :
    ∀ {s : List Char}, dropTrailP p s ≠ [] → hdD 'a' (dropTrailP p s) = hdD 'a' s := by
  intro s
  induction s with
  | nil => intro h; exact absurd rfl h
  | cons a r ih =>
    intro h
    unfold dropTrailP at h ⊢
    simp only [] at h ⊢
    by_cases ht : (dropTrailP p r).isEmpty = true
    · rw [if_pos ht] at h ⊢
      by_cases ha : p a = true
      · rw [if_pos ha] at h; exact absurd rfl h
      · rw [if_neg ha]; rfl
    · rw [if_neg ht] at h ⊢
      rfl

theorem dropTrailP_last_prop {p : Char → Bool} :
    ∀ {s : List Char}, dropTrailP p s ≠ [] → p (lsD 'a' (dropTrailP p s)) = false := by
  intro s
  induction s with
  | nil => intro h; exact absurd rfl h
  | cons a r ih =>
    intro h
    unfold dropTrailP at h ⊢
    simp only [] at h ⊢
    by_cases ht : (dropTrailP p r).isEmpty = true
    · rw [if_pos ht] at h ⊢
      by_cases ha : p a = true
      · rw [if_pos ha] at h; exact absurd rfl h
      · rw [if_neg ha]
        simpa [lsD] using ha
    · rw [if_neg ht] at h ⊢
      have hne : dropTrailP p r ≠ [] := by
        intro h0
        rw [h0] at ht
        exact ht rfl
      rw [lsD_cons hne]
      exact ih hne

theorem dropLeadP_last_prop {p : Char → Bool} :
    ∀ {s : List Char}, dropLeadP p s ≠ [] → lsD 'a' (dropLeadP p s) = lsD 'a' s := by
  intro s
  induction s with
  | nil => intro h; exact absurd rfl h
  | cons a r ih =>
    intro h
    by_cases ha : p a = true
    · rw [dropLeadP_cons_pos ha] at h ⊢
      have hr : r ≠ [] := by
        intro h0
        subst h0
        exact h rfl
      rw [ih h, lsD_cons hr]
    · rw [dropLeadP_cons_neg (by simpa using ha)]

/-! ### Underscore-run lemmas -/

theorem noDD_tail {c : Char} {r : List Char} (h : noDD (c :: r) = true) : noDD r = true := by
  cases r with
  | nil => rfl
  | cons b t =>
    simp only [noDD, Bool.and_eq_true] at h
    exact h.2

theorem noDD_pair {c1 c2 : Char} {r : List Char} (h : noDD (c1 :: c2 :: r) = true) :
    ¬ (c1 = '_' ∧ c2 = '_') := by
  simp only [noDD, Bool.and_eq_true, Bool.not_eq_true', Bool.and_eq_false_iff,
    beq_eq_false_iff_ne, ne_eq] at h
  rcases h.1 with h1 | h1
  · intro hc; exact h1 hc.1
  · intro hc; exact h1 hc.2

theorem noDD_cons_build {c1 c2 : Char} {r : List Char} (hp : ¬ (c1 = '_' ∧ c2 = '_'))
    (h : noDD (c2 :: r) = true) : noDD (c1 :: c2 :: r) = true := by
  simp only [noDD, Bool.and_eq_true, Bool.not_eq_true', Bool.and_eq_false_iff,
    beq_eq_false_iff_ne, ne_eq]
  constructor
  · by_cases h1 : c1 = '_'
    · right; intro h2; exact hp ⟨h1, h2⟩
    · left; exact h1
  · exact h

theorem noDD_of_no_underscore :
    ∀ {s : List Char}, (∀ c ∈ s, ¬ c = '_') → noDD s = true := by
  intro s
  induction s with
  | nil => intro _; rfl
  | cons a r ih =>
    intro h
    cases r with
    | nil => rfl
    | cons b t =>
      refine noDD_cons_build (fun hc => h a (by simp) hc.1) (ih ?_)
      intro c hc
      exact h c (List.mem_cons_of_mem a hc)

theorem noDD_uscore_cons {ds : List Char} (h : ∀ c ∈ ds, ¬ c = '_') (hne : ds ≠ []) :
    noDD ('_' :: ds) = true := by
  cases ds with
  | nil => exact absurd rfl hne
  | cons d t =>
    refine noDD_cons_build (fun hc => h d (by simp) hc.2) (noDD_of_no_underscore h)

theorem dropLeadP_noDD {p : Char → Bool} :
    ∀ {s : List Char}, noDD s = true → noDD (dropLeadP p s) = true := by
  intro s
  induction s with
  | nil => intro _; rfl
  | cons a r ih =>
    intro h
    by_cases ha : p a = true
    · rw [dropLeadP_cons_pos ha]
      exact ih (noDD_tail h)
    · rw [dropLeadP_cons_neg (by simpa using ha)]
      exact h

theorem dropTrailP_noDD {p : Char → Bool} :
    ∀ {s : List Char}, noDD s = true → noDD (dropTrailP p s) = true := by
  intro s
  induction s with
  | nil => intro _; rfl
  | cons a r ih =>
    intro h
    unfold dropTrailP
    simp only []
    by_cases ht : (dropTrailP p r).isEmpty = true
    · rw [if_pos ht]
      by_cases ha : p a = true
      · rw [if_pos ha]; rfl
      · rw [if_neg ha]; rfl
    · rw [if_neg ht]
      have hne : dropTrailP p r ≠ [] := by
        intro h0; rw [h0] at ht; exact ht rfl
      cases r with
      | nil => exact absurd rfl (dropTrailP_to_nil hne)
      | cons b r2 =>
        cases hr2 : dropTrailP p (b :: r2) with
        | nil => exact absurd hr2 hne
        | cons d t' =>
          have hd : d = b := by
            have h3 := dropTrailP_head_prop (p := p) (s := b :: r2) hne
            rw [hr2] at h3
            simpa [hdD] using h3
          rw [hd] at hr2
          rw [hd]
          refine noDD_cons_build (noDD_pair h) ?_
          rw [← hr2]
          exact ih (noDD_tail h)

/-! ### `collapseU` lemmas -/

theorem collapseU_cons_pos {c1 c2 : Char} {r : List Char} (h1 : c1 = '_') (h2 : c2 = '_') :
    collapseU (c1 :: c2 :: r) = collapseU (c2 :: r) := by
  simp [collapseU, h1, h2]

theorem collapseU_cons_neg {c1 c2 : Char} {r : List Char} (h : ¬ (c1 = '_' ∧ c2 = '_')) :
    collapseU (c1 :: c2 :: r) = c1 :: collapseU (c2 :: r) := by
  have hb : (c1 == '_' && c2 == '_') = false := by
    rcases not_and_or.mp h with h1 | h1 <;> simp [beq_eq_false_iff_ne, h1]
  simp [collapseU, hb]

theorem collapseU_sub : ∀ {s : List Char} {c : Char}, c ∈ collapseU s → c ∈ s := by
  intro s
  induction s with
  | nil => intro c h; exact h
  | cons a r ih =>
    intro c h
    cases r with
    | nil => exact h
    | cons b r2 =>
      by_cases hp : a = '_' ∧ b = '_'
      · rw [collapseU_cons_pos hp.1 hp.2] at h
        exact List.mem_cons_of_mem a (ih h)
      · rw [collapseU_cons_neg hp] at h
        rcases List.mem_cons.mp h with h | h
        · subst h; exact List.mem_cons_self c (b :: r2)
        · exact List.mem_cons_of_mem a (ih h)

theorem collapseU_ne_nil : ∀ {s : List Char}, s ≠ [] → collapseU s ≠ [] := by
  intro s
  induction s with
  | nil => intro h; exact absurd rfl h
  | cons a r ih =>
    intro _
    cases r with
    | nil => simp [collapseU]
    | cons b r2 =>
      by_cases hp : a = '_' ∧ b = '_'
      · rw [collapseU_cons_pos hp.1 hp.2]
        exact ih (by simp)
      · rw [collapseU_cons_neg hp]
        simp

theorem collapseU_head : ∀ {s : List Char}, s ≠ [] → hdD 'a' (collapseU s) = hdD 'a' s := by
  intro s
  induction s with
  | nil => intro h; exact absurd rfl h
  | cons a r ih =>
    intro _
    cases r with
    | nil => rfl
    | cons b r2 =>
      by_cases hp : a = '_' ∧ b = '_'
      · rw [collapseU_cons_pos hp.1 hp.2, ih (by simp)]
        simp [hdD, hp.1, hp.2]
      · rw [collapseU_cons_neg hp]
        rfl

theorem collapseU_last : ∀ {s : List Char}, s ≠ [] → lsD 'a' (collapseU s) = lsD 'a' s := by
  intro s
  induction s with
  | nil => intro h; exact absurd rfl h
  | cons a r ih =>
    intro _
    cases r with
    | nil => rfl
    | cons b r2 =>
      by_cases hp : a = '_' ∧ b = '_'
      · rw [collapseU_cons_pos hp.1 hp.2, ih (by simp)]
        exact (lsD_cons (by simp)).symm
      · rw [collapseU_cons_neg hp]
        have hne := collapseU_ne_nil (s := b :: r2) (by simp)
        rw [lsD_cons hne, ih (by simp)]
        exact (lsD_cons (by simp)).symm

theorem collapseU_noDD : ∀ (s : List Char), noDD (collapseU s) = true := by
  intro s
  induction s with
  | nil => rfl
  | cons a r ih =>
    cases r with
    | nil => rfl
    | cons b r2 =>
      by_cases hp : a = '_' ∧ b = '_'
      · rw [collapseU_cons_pos hp.1 hp.2]
        exact ih
      · rw [collapseU_cons_neg hp]
        have hne := collapseU_ne_nil (s := b :: r2) (by simp)
        cases hX : collapseU (b :: r2) with
        | nil => exact absurd hX hne
        | cons d t' =>
          have hd : d = b := by
            have h3 := collapseU_head (s := b :: r2) (by simp)
            rw [hX] at h3
            simpa [hdD] using h3
          rw [hd] at hX
          rw [hd]
          refine noDD_cons_build hp ?_
          rw [← hX]
          exact ih

theorem collapseU_fixed : ∀ {s : List Char}, noDD s = true → collapseU s = s := by
  intro s
  induction s with
  | nil => intro _; rfl
  | cons a r ih =>
    intro h
    cases r with
    | nil => rfl
    | cons b r2 =>
      rw [collapseU_cons_neg (noDD_pair h), ih (noDD_tail h)]

/-! ### Decimal representation lemmas -/

theorem natDigsAux_digits :
    ∀ (f n : Nat) (c : Char), c ∈ natDigsAux f n → isDigitB c = true := by
  intro f
  induction f with
  | zero => intro n c h; exact absurd h (List.not_mem_nil c)
  | succ f ih =>
    intro n c h
    cases n with
    | zero => exact absurd h (List.not_mem_nil c)
    | succ m =>
      unfold natDigsAux at h
      rcases List.mem_cons.mp h with h | h
      · subst h
        have hlt : (m + 1) % 10 < 10 := Nat.mod_lt _ (by omega)
        exact (by decide : ∀ d, d < 10 → isDigitB (Nat.digitChar d) = true) _ hlt
      · exact ih _ c h

theorem natRepr_digits {n : Nat} : ∀ c ∈ natRepr n, isDigitB c = true := by
  intro c h
  unfold natRepr at h
  by_cases h0 : n = 0
  · rw [if_pos h0] at h
    simp only [List.mem_singleton] at h
    subst h
    decide
  · rw [if_neg h0] at h
    exact natDigsAux_digits n n c (List.mem_reverse.mp h)

theorem natRepr_ne_nil (n : Nat) : natRepr n ≠ [] := by
  unfold natRepr
  by_cases h0 : n = 0
  · rw [if_pos h0]; simp
  · rw [if_neg h0]
    cases n with
    | zero => exact absurd rfl h0
    | succ m =>
      unfold natDigsAux
      simp

theorem natDigsAux_bound : ∀ (f n : Nat), n ≤ f → n < 10 ^ (natDigsAux f n).length := by
  intro f
  induction f with
  | zero => intro n h; interval_cases n; simp
  | succ f ih =>
    intro n h
    cases n with
    | zero => simp
    | succ m =>
      unfold natDigsAux
      have hdiv : (m + 1) / 10 < m + 1 := Nat.div_lt_self (by omega) (by omega)
      have hle : (m + 1) / 10 ≤ f := by omega
      have hb := ih ((m + 1) / 10) hle
      have hmod := Nat.div_add_mod (m + 1) 10
      have hmlt : (m + 1) % 10 < 10 := Nat.mod_lt _ (by omega)
      simp only [List.length_cons, Nat.pow_succ]
      omega

theorem natRepr_len {L n : Nat} (h : 10 ^ L ≤ n) : L + 1 ≤ (natRepr n).length := by
  have h0 : ¬ n = 0 := by
    have := Nat.one_le_two_pow (n := L)
    have h1 : 1 ≤ 10 ^ L := Nat.one_le_pow _ _ (by omega)
    omega
  unfold natRepr
  rw [if_neg h0]
  rw [List.length_reverse]
  by_contra hc
  have hlen : (natDigsAux n n).length ≤ L := by omega
  have hle : 10 ^ (natDigsAux n n).length ≤ 10 ^ L :=
    Nat.pow_le_pow_right (by omega) hlen
  have := natDigsAux_bound n n (Nat.le_refl n)
  omega

/-! ### Uniquification lemmas -/

theorem maxLen_ge : ∀ {used : List (List Char)} {u : List Char},
    u ∈ used → u.length ≤ maxLen used := by
  intro used
  induction used with
  | nil => intro u h; exact absurd h (List.not_mem_nil u)
  | cons a t ih =>
    intro u h
    have hm : maxLen (a :: t) = max a.length (maxLen t) := rfl
    rcases List.mem_cons.mp h with h | h
    · subst h
      rw [hm]
      exact Nat.le_max_left _ _
    · rw [hm]
      exact Nat.le_trans (ih h) (Nat.le_max_right _ _)

theorem candName_len (base : List Char) (k : Nat) :
    (candName base k).length = base.length + 1 + (natRepr k).length := by
  simp [candName]
  omega

theorem candName_not_mem {base : List Char} {used : List (List Char)} {k : Nat}
    (h : maxLen used < (natRepr k).length) : candName base k ∉ used := by
  intro hm
  have h1 := maxLen_ge hm
  rw [candName_len] at h1
  omega

theorem uniquifyFrom_not_mem {base : List Char} {used : List (List Char)} :
    ∀ (f k : Nat), candName base (k + f) ∉ used → uniquifyFrom base used f k ∉ used := by
  intro f
  induction f with
  | zero => intro k h; simpa [uniquifyFrom] using h
  | succ f ih =>
    intro k h
    unfold uniquifyFrom
    by_cases hc : candName base k ∈ used
    · rw [if_pos hc]
      apply ih (k + 1)
      have he : k + 1 + f = k + (f + 1) := by omega
      rw [he]
      exact h
    · rw [if_neg hc]
      exact hc

theorem uniquify_not_mem (base : List Char) (used : List (List Char)) :
    uniquify base used ∉ used := by
  unfold uniquify
  by_cases hb : base ∈ used
  · rw [if_pos hb]
    apply uniquifyFrom_not_mem
    apply candName_not_mem
    have h1 : 10 ^ (maxLen used + 1) ≤ 1 + 10 ^ (maxLen used + 1) := by omega
    have h2 := natRepr_len h1
    omega
  · rw [if_neg hb]
    exact hb

theorem uniquifyFrom_form (base : List Char) (used : List (List Char)) :
    ∀ (f k : Nat), ∃ j, uniquifyFrom base used f k = candName base j := by
  intro f
  induction f with
  | zero => intro k; exact ⟨k, rfl⟩
  | succ f ih =>
    intro k
    unfold uniquifyFrom
    by_cases hc : candName base k ∈ used
    · rw [if_pos hc]
      exact ih (k + 1)
    · rw [if_neg hc]
      exact ⟨k, rfl⟩

theorem uniquify_form (base : List Char) (used : List (List Char)) :
    uniquify base used = base ∨ ∃ j, uniquify base used = candName base j := by
  unfold uniquify
  by_cases hb : base ∈ used
  · rw [if_pos hb]
    exact Or.inr (uniquifyFrom_form base used _ 1)
  · rw [if_neg hb]
    exact Or.inl rfl

theorem uniquify_of_not_mem {base : List Char} {used : List (List Char)}
    (h : base ∉ used) : uniquify base used = base := by
  unfold uniquify
  rw [if_neg h]

/-! ### Shape of sanitized identifiers -/

theorem noDD_append_uscore :
    ∀ {b : List Char}, noDD b = true → ¬ lsD 'a' b = '_' →
      ∀ {ds : List Char}, (∀ c ∈ ds, ¬ c = '_') → ds ≠ [] →
        noDD (b ++ '_' :: ds) = true := by
  intro b
  induction b with
  | nil =>
    intro _ _ ds h hne
    simpa using noDD_uscore_cons h hne
  | cons c b' ih =>
    intro hn hl ds h hne
    cases b' with
    | nil =>
      have hc : ¬ c = '_' := by simpa [lsD] using hl
      exact noDD_cons_build (fun hp => hc hp.1) (noDD_uscore_cons h hne)
    | cons c2 r =>
      have hx := ih (noDD_tail hn) (by rwa [lsD_cons (by simp)] at hl) h hne
      simp only [List.cons_append] at hx ⊢
      exact noDD_cons_build (noDD_pair hn) hx

theorem shapeOK_cand {base : List Char} {k : Nat} (h : shapeOK base) :
    shapeOK (candName base k) := by
  obtain ⟨hne, hchars, hnodd, hhd, hls⟩ := h
  refine ⟨by simp [candName], ?_, ?_, ?_, ?_⟩
  · intro c hc
    rcases List.mem_append.mp hc with hc | hc
    · exact hchars c hc
    · rcases List.mem_cons.mp hc with hc | hc
      · subst hc; decide
      · exact isDigitB_allowed (natRepr_digits c hc)
  · exact noDD_append_uscore hnodd hls
      (fun c hc => isDigitB_ne_underscore (natRepr_digits c hc)) (natRepr_ne_nil k)
  · unfold candName
    rw [hdD_append 'a' hne]
    exact hhd
  · unfold candName
    rw [lsD_append_cons, lsD_cons (natRepr_ne_nil k)]
    exact isDigitB_ne_underscore (natRepr_digits _ (lsD_mem 'a' (natRepr_ne_nil k)))

theorem shapeOK_uniquify {base : List Char} {used : List (List Char)}
    (h : shapeOK base) : shapeOK (uniquify base used) := by
  rcases uniquify_form base used with he | ⟨j, he⟩ <;> rw [he]
  · exact h
  · exact shapeOK_cand h

theorem shapeOK_colName (i : Nat) : shapeOK (colName i) := by
  have hds : ∀ c ∈ natRepr (i + 1), ¬ c = '_' :=
    fun c hc => isDigitB_ne_underscore (natRepr_digits c hc)
  have hcol : colName i = ['c', 'o', 'l'] ++ '_' :: natRepr (i + 1) := rfl
  refine ⟨by simp [colName], ?_, ?_, ?_, ?_⟩
  · intro c hc
    rw [hcol] at hc
    rcases List.mem_append.mp hc with hc | hc
    · simp only [List.mem_cons, List.not_mem_nil, or_false] at hc
      rcases hc with hc | hc | hc <;> subst hc <;> decide
    · rcases List.mem_cons.mp hc with hc | hc
      · subst hc; decide
      · exact isDigitB_allowed (natRepr_digits c hc)
  · rw [hcol]
    exact noDD_append_uscore (by decide) (by decide) hds (natRepr_ne_nil _)
  · simp [colName, hdD]
  · rw [hcol, lsD_append_cons, lsD_cons (natRepr_ne_nil _)]
    exact isDigitB_ne_underscore (natRepr_digits _ (lsD_mem 'a' (natRepr_ne_nil _)))

theorem sanitizeCore_eq (name : List Char) (i : Nat) :
    sanitizeCore name i =
      (fun n5 => if n5.isEmpty then colName i else n5)
        (dropTrailP (fun c => c == '_') (dropLeadP (fun c => c == '_') (collapseU
          ((fun n3 => if leadDigit n3 then 'c' :: '_' :: n3 else n3)
            ((if (pyStrip name).isEmpty then colName i else pyStrip name).map sanChar))))) :=
  rfl

theorem shapeOK_tailPart {m : List Char} (hall : ∀ c ∈ m, allowedB c = true) (i : Nat) :
    shapeOK (if (dropTrailP (fun c => c == '_')
        (dropLeadP (fun c => c == '_') (collapseU m))).isEmpty
      then colName i
      else dropTrailP (fun c => c == '_') (dropLeadP (fun c => c == '_') (collapseU m))) := by
  by_cases he : (dropTrailP (fun c => c == '_')
      (dropLeadP (fun c => c == '_') (collapseU m))).isEmpty = true
  · rw [if_pos he]
    exact shapeOK_colName i
  · rw [if_neg he]
    have hne : dropTrailP (fun c => c == '_')
        (dropLeadP (fun c => c == '_') (collapseU m)) ≠ [] := by
      intro h0
      rw [h0] at he
      exact he rfl
    refine ⟨hne, ?_, ?_, ?_, ?_⟩
    · intro c hc
      exact hall c (collapseU_sub (dropLeadP_sub (dropTrailP_sub hc)))
    · exact dropTrailP_noDD (dropLeadP_noDD (collapseU_noDD m))
    · have h1 := dropTrailP_head_prop hne
      have h2 : dropLeadP (fun c => c == '_') (collapseU m) ≠ [] := dropTrailP_to_nil hne
      have h3 := dropLeadP_head_prop h2
      rw [h1]
      simpa [beq_eq_false_iff_ne] using h3
    · have h3 := dropTrailP_last_prop hne
      simpa [beq_eq_false_iff_ne] using h3

theorem shapeOK_core (name : List Char) (i : Nat) : shapeOK (sanitizeCore name i) := by
  rw [sanitizeCore_eq]
  have hall3 : ∀ c ∈ ((if (pyStrip name).isEmpty then colName i
      else pyStrip name).map sanChar), allowedB c = true := by
    intro c hc
    rcases List.mem_map.mp hc with ⟨d, _, hd⟩
    rw [← hd]
    exact allowed_sanChar d
  by_cases hld : leadDigit ((if (pyStrip name).isEmpty then colName i
      else pyStrip name).map sanChar) = true
  · simp only [hld, if_true]
    apply shapeOK_tailPart
    intro c hc
    rcases List.mem_cons.mp hc with hc | hc
    · subst hc; decide
    · rcases List.mem_cons.mp hc with hc | hc
      · subst hc; decide
      · exact hall3 c hc
  · simp only [hld, Bool.false_eq_true, if_false]
    exact shapeOK_tailPart hall3 i

theorem shapeOK_sanitize (name : List Char) (used : List (List Char)) (i : Nat) :
    shapeOK (sanitize_column name used i) :=
  shapeOK_uniquify (shapeOK_core name i)

theorem sanitize_not_mem (name : List Char) (used : List (List Char)) (i : Nat) :
    sanitize_column name used i ∉ used :=
  uniquify_not_mem _ _

/-! ### Fixed points of the sanitizer -/

theorem map_id_of_fixed {f : Char → Char} :
    ∀ {s : List Char}, (∀ c ∈ s, f c = c) → s.map f = s := by
  intro s
  induction s with
  | nil => intro _; rfl
  | cons a r ih =>
    intro h
    simp only [List.map_cons]
    rw [h a (by simp), ih (fun c hc => h c (List.mem_cons_of_mem a hc))]

theorem sanitizeCore_fixed {s : List Char} (hs : shapeOK s)
    (hd : leadDigit s = false) (i : Nat) : sanitizeCore s i = s := by
  obtain ⟨hne, hall, hnodd, hhd, hls⟩ := hs
  have hemp : s.isEmpty = false := by
    cases s with
    | nil => exact absurd rfl hne
    | cons a r => rfl
  have hstrip : pyStrip s = s := by
    unfold pyStrip
    rw [dropLeadP_all_fixed (fun c hc => allowed_not_space (hall c hc))]
    exact dropTrailP_all_fixed (fun c hc => allowed_not_space (hall c hc))
  have hmap : s.map sanChar = s :=
    map_id_of_fixed (fun c hc => sanChar_allowed_fixed (hall c hc))
  rw [sanitizeCore_eq, hstrip]
  simp only [hemp, Bool.false_eq_true, if_false]
  rw [hmap]
  simp only [hd, Bool.false_eq_true, if_false]
  rw [collapseU_fixed hnodd]
  rw [dropLeadP_head_fixed (by simpa [beq_eq_false_iff_ne] using hhd)]
  rw [dropTrailP_last_fixed (by simpa [beq_eq_false_iff_ne] using hls)]
  simp only [hemp, Bool.false_eq_true, if_false]

/-! ### Whole-header-row sanitization -/

theorem sanitizeList_props :
    ∀ (hs used : List (List Char)) (i : Nat),
      (∀ s ∈ sanitizeList hs used i, s ∉ used ∧ shapeOK s)
      ∧ (sanitizeList hs used i).Nodup := by
  intro hs
  induction hs with
  | nil =>
    intro used i
    exact ⟨fun s h => absurd h (List.not_mem_nil s), List.nodup_nil⟩
  | cons h t ih =>
    intro used i
    have hrfl : sanitizeList (h :: t) used i
        = sanitize_column h used i
            :: sanitizeList t (used ++ [sanitize_column h used i]) (i + 1) := rfl
    rw [hrfl]
    obtain ⟨ihmem, ihnd⟩ := ih (used ++ [sanitize_column h used i]) (i + 1)
    constructor
    · intro s hsm
      rcases List.mem_cons.mp hsm with hsm | hsm
      · subst hsm
        exact ⟨sanitize_not_mem h used i, shapeOK_sanitize h used i⟩
      · have hprev := ihmem s hsm
        exact ⟨fun hu => hprev.1 (List.mem_append.mpr (Or.inl hu)), hprev.2⟩
    · rw [List.nodup_cons]
      refine ⟨?_, ihnd⟩
      intro hmem
      exact (ihmem _ hmem).1 (List.mem_append.mpr (Or.inr (by simp)))

theorem sanitizeList_fixed :
    ∀ (ns used : List (List Char)) (i : Nat),
      (∀ n ∈ ns, shapeOK n ∧ leadDigit n = false) → ns.Nodup →
      (∀ n ∈ ns, n ∉ used) → sanitizeList ns used i = ns := by
  intro ns
  induction ns with
  | nil => intro used i _ _ _; rfl
  | cons n t ih =>
    intro used i hprops hnd hused
    have hfix : sanitize_column n used i = n := by
      unfold sanitize_column
      rw [sanitizeCore_fixed (hprops n (by simp)).1 (hprops n (by simp)).2]
      exact uniquify_of_not_mem (hused n (by simp))
    have hrfl : sanitizeList (n :: t) used i
        = sanitize_column n used i
            :: sanitizeList t (used ++ [sanitize_column n used i]) (i + 1) := rfl
    rw [hrfl, hfix]
    congr 1
    apply ih
    · intro m hm
      exact hprops m (List.mem_cons_of_mem n hm)
    · exact (List.nodup_cons.mp hnd).2
    · intro m hm hmem
      rcases List.mem_append.mp hmem with h1 | h1
      · exact hused m (List.mem_cons_of_mem n hm) h1
      · simp only [List.mem_singleton] at h1
        subst h1
        exact (List.nodup_cons.mp hnd).1 hm

/-- C5 evaluated at the failing input: the raw header `"#1"` sanitizes to the
identifier `"1"`, which begins with a digit — the leading-digit guard of
lines 23-24 runs before the underscore strip of line 26 can expose a digit,
contradicting both the claim and the code's own `# Avoid leading digits`. -/
theorem c5_leading_digit_outcome :
    infer_headers [['#', '1']] = [['1']] ∧ leadDigit ['1'] = true := by
  exact ⟨by decide, by decide⟩

/-- Counterexample to C6 as stated: normalizing `["#1"]` yields `["1"]`, and
re-normalizing `["1"]` prefixes the leading digit, yielding `["c_1"]`. -/
theorem c6_counterexample :
    ¬ infer_headers (infer_headers [['#', '1']]) = infer_headers [['#', '1']] := by
  decide

/-- C6 (amended): normalization is idempotent on every header list whose
normalized output contains no identifier beginning with a digit (the sole
escape, exposed by the `c6_counterexample` input, is the leading-digit slip
of `sanitize_column`). -/
theorem c6_idempotent_digit_free (hs : List (List Char))
    (H : ∀ n ∈ infer_headers hs, leadDigit n = false) :
    infer_headers (infer_headers hs) = infer_headers hs := by
  unfold infer_headers at H ⊢
  apply sanitizeList_fixed
  · intro n hn
    exact ⟨((sanitizeList_props hs [] 0).1 n hn).2, H n hn⟩
  · exact (sanitizeList_props hs [] 0).2
  · intro n _
    exact List.not_mem_nil n

/-- Witness for C6's amended statement on a duplicated header list. -/
theorem c6_idempotent_case :
    infer_headers (infer_headers [['a'], ['a']]) = infer_headers [['a'], ['a']] :=
  c6_idempotent_digit_free [['a'], ['a']] (by decide)
